import Mathlib

/-!
Verification development for the `Ember.GroupableMixin` incremental grouping
engine (`packages/ember-runtime/lib/mixins/groupable.js`).

Shallow embedding conventions:
- `M` is the type of member identities (JS object identity); `V` is the type of
  JS property values, with decidable equality standing for JS strict equality
  (`===`) on non-NaN values.
- A member's fields are an environment `env : M → String → V`; field mutation
  is modelled as updating this environment.
- `JSVal` models the possible JS values of the `groupProperties` slot, with JS
  truthiness (`Ember.computed.bool`) and `Ember.typeOf`.
- Groups are records of their key attributes (the merged properties set by
  `_gmCreateGroup`) and their ordered member list; the group set is the ordered
  list of groups held as the `content` of the `groupedContent` array proxy.
- Observer bookkeeping is the set of (member, property) pairs with a
  before/after observer pair installed; `Ember.addObserver` deduplicates an
  already-registered (target, method) listener and `Ember.removeObserver` of an
  absent listener is a silent no-op, which is what `addSub`/`removeSub` model.
-/

set_option linter.unusedSectionVars false
set_option linter.unusedVariables false

namespace Groupable

/-- JS-like value for the `groupProperties` slot (arrays carry property names). -/
inductive JSVal where
  | null
  | undef
  | bool (b : Bool)
  | num (n : Int)
  | str (s : String)
  | arr (ps : List String)
deriving DecidableEq

/-- JS truthiness of a `JSVal` (arrays, including `[]`, are truthy). -/
def truthy : JSVal → Bool
  | .null => false
  | .undef => false
  | .bool b => b
  | .num n => decide (n ≠ 0)
  | .str s => decide (s ≠ "")
  | .arr _ => true

/-- `Ember.typeOf` restricted to the values of `JSVal`. -/
def typeOf : JSVal → String
  | .null => "null"
  | .undef => "undefined"
  | .bool _ => "boolean"
  | .num _ => "number"
  | .str _ => "string"
  | .arr _ => "array"

/-- `isGrouped: Ember.computed.bool('groupProperties')` (groupable.js line 97):
the double-negation coercion of the current `groupProperties` value. -/
def isGrouped (groupProperties : JSVal) : Bool :=
  truthy groupProperties

/-- One group of the grouped content: the key attributes merged onto the group
object by `_gmCreateGroup` and the ordered member list (its `content`). -/
structure Group (M V : Type) where
  key : List (String × V)
  members : List M
deriving DecidableEq

/-- The entries of a `groupedContent` group set: either a keyed group built by
the grouping path, or the single passthrough group of ungrouped mode whose
`content` is `Ember.computed.oneWay('parentController.content')`. -/
inductive BuiltGroup (M V : Type) where
  | keyed (g : Group M V)
  | passthrough
deriving DecidableEq

variable {M V : Type} [DecidableEq M] [DecidableEq V]

/-- `Ember.getProperties(object, keys)`: the key→value map of the named
properties, represented as an association list in key order. -/
def getProps (env : M → String → V) (object : M) : List String → List (String × V)
  | [] => []
  | k :: ks => (k, env object k) :: getProps env object ks

/-- Property lookup in an association list (first binding wins, `undefined` as
`none` for an absent key). -/
def plook : List (String × V) → String → Option V
  | [], _ => none
  | p :: ps, k => if p.1 = k then some p.2 else plook ps k

/-- The inner loop of `_gmFindGroup`: every property of `propNames` has
strictly-equal values in the two property maps (`given[key] !== propValues[key]`
fails for none of the keys). -/
def gmMatches (propNames : List String) (gkey pvals : List (String × V)) : Bool :=
  propNames.all (fun k => decide (plook gkey k = plook pvals k))

/-- `_gmFindGroup(groups, propNames, propValues)` (groupable.js lines 366-385):
linear scan over the known groups, first group whose key attributes match wins. -/
def gmFindGroup (groups : List (Group M V)) (propNames : List String)
    (propValues : List (String × V)) : Option (Group M V) :=
  groups.find? (fun g => gmMatches propNames g.key propValues)

/-- `_gmCreateGroup(properties)` (groupable.js lines 394-401): a fresh group
carrying the given key attributes and an empty `content`. -/
def gmCreateGroup (values : List (String × V)) : Group M V :=
  { key := values, members := [] }

/-- Find the first group matching `values` and `pushObject(object)` onto it
(in-place mutation of the found group inside the live groups list); `none` if
no group matches. -/
def pushToFirstMatch (propNames : List String) (values : List (String × V)) (object : M) :
    List (Group M V) → Option (List (Group M V))
  | [] => none
  | g :: gs =>
    if gmMatches propNames g.key values then
      some ({ g with members := g.members ++ [object] } :: gs)
    else
      (pushToFirstMatch propNames values object gs).map (fun r => g :: r)

/-- Find the first group matching `values` and `addObject(object)` onto it
(`addObject` appends only when the object is not already present). -/
def addToFirstMatch (propNames : List String) (values : List (String × V)) (object : M) :
    List (Group M V) → Option (List (Group M V))
  | [] => none
  | g :: gs =>
    if gmMatches propNames g.key values then
      some ({ g with
        members := if object ∈ g.members then g.members else g.members ++ [object] } :: gs)
    else
      (addToFirstMatch propNames values object gs).map (fun r => g :: r)

/-- Find the first group matching `values` and `removeObject(object)` from it
(`removeObject` deletes every strictly-equal occurrence); returns the updated
groups list and the updated found group, if any. -/
def removeFromFirstMatch (propNames : List String) (values : List (String × V)) (object : M) :
    List (Group M V) → List (Group M V) × Option (Group M V)
  | [] => ([], none)
  | g :: gs =>
    if gmMatches propNames g.key values then
      let g2 : Group M V := { g with members := g.members.filter (fun x => decide (x ≠ object)) }
      (g2 :: gs, some g2)
    else
      let r := removeFromFirstMatch propNames values object gs
      (g :: r.1, r.2)

/-- The find-or-create-and-push step shared by the initial partition
(groupable.js lines 117-127) and `contentItemGroupPropertyDidChange`
(lines 283-292): locate the group via `_gmFindGroup`, create and append a new
group holding the values when none matches, then `pushObject(object)`. -/
def gmFindOrCreatePush (propNames : List String) (values : List (String × V)) (object : M)
    (groups : List (Group M V)) : List (Group M V) :=
  match pushToFirstMatch propNames values object groups with
  | some gs => gs
  | none => groups ++ [{ key := values, members := [object] }]

/-- One iteration of the `forEach(content, ...)` loop of the initial partition
(groupable.js lines 117-133), restricted to its group effects. -/
def gciStep (env : M → String → V) (propNames : List String)
    (groups : List (Group M V)) (object : M) : List (Group M V) :=
  gmFindOrCreatePush propNames (getProps env object propNames) object groups

/-- The group list produced by the grouped branch of the `groupedContent`
computed property (groupable.js lines 114-133). -/
def buildGroups (env : M → String → V) (propNames : List String)
    (content : List M) : List (Group M V) :=
  content.foldl (gciStep env propNames) []

/-- `Ember.addObserver`/`Ember.addBeforeObserver` registration of the paired
relocation observers for one (member, property): the host listener registry
ignores a duplicate registration of the same (target, method). -/
def addSub (subs : List (M × String)) (p : M × String) : List (M × String) :=
  if p ∈ subs then subs else subs ++ [p]

/-- `Ember.removeObserver`/`Ember.removeBeforeObserver` removal of the paired
relocation observers for one (member, property): removing an absent listener is
a silent no-op. -/
def removeSub (subs : List (M × String)) (p : M × String) : List (M × String) :=
  subs.filter (fun q => decide (q ≠ p))

/-- The observer registrations installed by the initial partition (groupable.js
lines 129-132): for each member in content order, one before/after observer
pair per group property. -/
def buildSubs (propNames : List String) (content : List M) : List (M × String) :=
  content.foldl (fun subs o => propNames.foldl (fun s k => addSub s (o, k)) subs) []

/-- The `groupedContent` computed property body (groupable.js lines 105-146):
the assert on `groupProperties`, then either the grouped partition (with its
observer installations) or the single passthrough group of ungrouped mode.
Returns the group list together with the installed observer pairs. -/
def groupedContent (env : M → String → V) (content : Option (List M))
    (groupProperties : JSVal) :
    Except String (List (BuiltGroup M V) × List (M × String)) :=
  if truthy groupProperties && !(typeOf groupProperties == "array") then
    .error "groupProperties must be null or an array"
  else
    match content, isGrouped groupProperties, groupProperties with
    | some c, true, .arr props =>
      .ok ((buildGroups env props c).map BuiltGroup.keyed, buildSubs props c)
    | _, _, _ => .ok ([BuiltGroup.passthrough], [])

/-- The member sequence a `groupedContent` group presents, given the source
collection's current content: a keyed group owns its own member list, while the
ungrouped passthrough group reads `parentController.content` through its
`oneWay` computed property. -/
def membersAt (bg : BuiltGroup M V) (currentContent : List M) : List M :=
  match bg with
  | .keyed g => g.members
  | .passthrough => currentContent

/-- The mutable state of one grouped collection: the member field environment,
the source content, the group list held by `groupedContent`, the installed
observer pairs, and the accumulated list of groups on which `destroy` has been
invoked by the engine. -/
structure GMState (M V : Type) where
  env : M → String → V
  content : List M
  groups : List (Group M V)
  subs : List (M × String)
  destroyed : List (Group M V)

/-- The state right after computing `groupedContent` in grouped mode over
`content`: the initial partition and its observer installations. -/
def initState (env : M → String → V) (propNames : List String)
    (content : List M) : GMState M V :=
  { env := env, content := content,
    groups := buildGroups env propNames content,
    subs := buildSubs propNames content,
    destroyed := [] }

/-- An external edit of the source collection: a structural splice
(remove `removedCount` members at `idx`, insert `newItems` there) or a field
write on one member. -/
inductive Edit (M V : Type) where
  | splice (idx removedCount : Nat) (newItems : List M)
  | fieldSet (object : M) (key : String) (value : V)

/-- One iteration of the removed-objects loop of `contentArrayWillChange`
(groupable.js lines 180-195), acting on (groups, groupsToRemove, subs). -/
def arrayWillStep (propNames : List String) (env : M → String → V)
    (acc : List (Group M V) × List (Group M V) × List (M × String)) (object : M) :
    List (Group M V) × List (Group M V) × List (M × String) :=
  let res := removeFromFirstMatch propNames (getProps env object propNames) object acc.1
  let toRemove :=
    match res.2 with
    | some g2 => if g2.members.length < 1 then acc.2.1 ++ [g2] else acc.2.1
    | none => acc.2.1
  let subs := propNames.foldl (fun s k => removeSub s (object, k)) acc.2.2
  (res.1, toRemove, subs)

/-- `contentArrayWillChange` (groupable.js lines 169-202): when grouped, remove
each about-to-be-removed member from its group and unsubscribe its observers,
then detach the deduplicated empty groups and destroy them. Returns the
resulting (groups, subs) and the groups destroyed by this call. -/
def contentArrayWillChange (propNames : List String) (env : M → String → V)
    (isG : Bool) (groups : List (Group M V)) (subs : List (M × String))
    (removed : List M) :
    List (Group M V) × List (M × String) × List (Group M V) :=
  if isG then
    let r := removed.foldl (arrayWillStep propNames env) (groups, [], subs)
    let toRemove := r.2.1.dedup
    (r.1.filter (fun g => decide (g ∉ toRemove)), r.2.2, toRemove)
  else (groups, subs, [])

/-- One iteration of the added-objects loop of `contentArrayDidChange`
(groupable.js lines 218-235), acting on (groups, groupsToAdd, subs). Note that
`_gmFindGroup` is called on the live `groups` list only, never on the pending
`groupsToAdd` batch. -/
def arrayDidStep (propNames : List String) (env : M → String → V)
    (acc : List (Group M V) × List (Group M V) × List (M × String)) (object : M) :
    List (Group M V) × List (Group M V) × List (M × String) :=
  let values := getProps env object propNames
  let step :=
    match addToFirstMatch propNames values object acc.1 with
    | some gs => (gs, acc.2.1)
    | none => (acc.1, acc.2.1 ++ [({ key := values, members := [object] } : Group M V)])
  let subs := propNames.foldl (fun s k => addSub s (object, k)) acc.2.2
  (step.1, step.2, subs)

/-- `contentArrayDidChange` (groupable.js lines 207-240): when grouped, place
each added member into a found group or a freshly created batched group,
subscribe its observers, then append all created groups at once. -/
def contentArrayDidChange (propNames : List String) (env : M → String → V)
    (isG : Bool) (groups : List (Group M V)) (subs : List (M × String))
    (added : List M) :
    List (Group M V) × List (M × String) :=
  if isG then
    let r := added.foldl (arrayDidStep propNames env) (groups, [], subs)
    (r.1 ++ r.2.1, r.2.2)
  else (groups, subs)

/-- `contentItemGroupPropertyWillChange` (groupable.js lines 249-266): when
grouped, find the member's current group by its pre-change values, remove the
member from it, and when the group became empty remove it from
`groupedContent` (the group is not destroyed here). -/
def contentItemGroupPropertyWillChange (propNames : List String)
    (env : M → String → V) (isG : Bool) (groups : List (Group M V))
    (object : M) : List (Group M V) :=
  if isG then
    let res := removeFromFirstMatch propNames (getProps env object propNames) object groups
    match res.2 with
    | some g2 =>
      if g2.members.length < 1 then res.1.filter (fun g => decide (g ≠ g2)) else res.1
    | none => res.1
  else groups

/-- `contentItemGroupPropertyDidChange` (groupable.js lines 275-294): when
grouped, find or create the member's destination group by its post-change
values (a created group is pushed onto `groupedContent` immediately) and
`pushObject` the member onto it. -/
def contentItemGroupPropertyDidChange (propNames : List String)
    (env : M → String → V) (isG : Bool) (groups : List (Group M V))
    (object : M) : List (Group M V) :=
  if isG then
    gmFindOrCreatePush propNames (getProps env object propNames) object groups
  else groups

/-- Apply one external edit: a splice dispatches the before/after pair of
array-observer notifications around the content mutation; a field write
dispatches the before/after pair of property-observer notifications around the
environment update. -/
def applyEdit (propNames : List String) (isG : Bool) (st : GMState M V) :
    Edit M V → GMState M V
  | .splice idx removedCount newItems =>
    let removed := (st.content.drop idx).take removedCount
    let w := contentArrayWillChange propNames st.env isG st.groups st.subs removed
    let newContent := st.content.take idx ++ newItems ++ st.content.drop (idx + removedCount)
    let added := (newContent.drop idx).take newItems.length
    let d := contentArrayDidChange propNames st.env isG w.1 w.2.1 added
    { env := st.env, content := newContent, groups := d.1, subs := d.2,
      destroyed := st.destroyed ++ w.2.2 }
  | .fieldSet object key value =>
    let groups1 := contentItemGroupPropertyWillChange propNames st.env isG st.groups object
    let env2 := fun o k => if o = object ∧ k = key then value else st.env o k
    let groups2 := contentItemGroupPropertyDidChange propNames env2 isG groups1 object
    { env := env2, content := st.content, groups := groups2, subs := st.subs,
      destroyed := st.destroyed }

/-- Apply a sequence of external edits in order. -/
def applyEdits (propNames : List String) (isG : Bool) (st : GMState M V)
    (edits : List (Edit M V)) : GMState M V :=
  edits.foldl (applyEdit propNames isG) st

/-- Structural validity of a single edit: a splice stays inside the current
content, and a field-change notification only fires for a currently observed
(member, property) pair. -/
def validEditB (st : GMState M V) : Edit M V → Bool
  | .splice idx removedCount _ => decide (idx + removedCount ≤ st.content.length)
  | .fieldSet object key _ => decide ((object, key) ∈ st.subs)

/-- An edit sequence is admissible from a state when every edit is valid where
it is applied and every intermediate content stays duplicate-free. -/
def validSeqB (propNames : List String) (isG : Bool) (st : GMState M V) :
    List (Edit M V) → Bool
  | [] => true
  | e :: es =>
    validEditB st e && decide ((applyEdit propNames isG st e).content.Nodup) &&
      validSeqB propNames isG (applyEdit propNames isG st e) es

/-- `_gmRemoveAllContentItemObservers` (groupable.js lines 341-355): remove the
observer pair of every (content member, group property). -/
def gmRemoveAllContentItemObservers (propNames : List String) (content : List M)
    (subs : List (M × String)) : List (M × String) :=
  content.foldl (fun s o => propNames.foldl (fun s2 k => removeSub s2 (o, k)) s) subs

/-- `destroy` (groupable.js lines 151-155) as it acts on the engine state: all
content-item observers are removed; nothing else of the grouping state is
touched by the mixin's own destroy step. -/
def gmDestroy (propNames : List String) (st : GMState M V) : GMState M V :=
  { st with subs := gmRemoveAllContentItemObservers propNames st.content st.subs }

/-- The (member, property) observer pairs that an invocation of `destroy` on
`st` actually removes (a `removeObserver` of an absent pair has no effect). -/
def destroyRemovedPairs (propNames : List String) (st : GMState M V) :
    List (M × String) :=
  st.subs.filter (fun p => decide (p ∉ (gmDestroy propNames st).subs))

/-- The subscription-set invariant of the spec: the installed observer pairs
are exactly the pairs of a current content member and a group property. -/
def subsExact (propNames : List String) (st : GMState M V) : Prop :=
  (∀ p ∈ st.subs, p.1 ∈ st.content ∧ p.2 ∈ propNames) ∧
  (∀ m ∈ st.content, ∀ k ∈ propNames, (m, k) ∈ st.subs)

/-- The structural invariant of a group list: every member of a group matches
the group's key attributes on the group properties, and no two positions of
the list hold groups with matching key attributes. -/
def GroupsInv (propNames : List String) (env : M → String → V)
    (gs : List (Group M V)) : Prop :=
  (∀ g ∈ gs, ∀ m ∈ g.members, gmMatches propNames g.key (getProps env m propNames) = true) ∧
  gs.Pairwise (fun g1 g2 => gmMatches propNames g1.key g2.key = false)

theorem gmMatches_iff (propNames : List String) (a b : List (String × V)) :
    gmMatches propNames a b = true ↔ ∀ k ∈ propNames, plook a k = plook b k := by
  simp [gmMatches, List.all_eq_true]

theorem gmMatches_refl (propNames : List String) (a : List (String × V)) :
    gmMatches propNames a a = true :=
  (gmMatches_iff propNames a a).mpr (fun _ _ => rfl)

theorem gmMatches_symm (propNames : List String) (a b : List (String × V))
    (h : gmMatches propNames a b = true) : gmMatches propNames b a = true :=
  (gmMatches_iff propNames b a).mpr
    (fun k hk => ((gmMatches_iff propNames a b).mp h k hk).symm)

theorem plook_getProps (env : M → String → V) (o : M) (keys : List String)
    (k : String) (hk : k ∈ keys) : plook (getProps env o keys) k = some (env o k) := by
  induction keys with
  | nil => cases hk
  | cons k0 ks ih =>
    by_cases h : k0 = k
    · subst h
      simp [getProps, plook]
    · rcases List.mem_cons.mp hk with h1 | h1
      · exact absurd h1.symm h
      · simp [getProps, plook, h, ih h1]

theorem gmMatches_getProps (env : M → String → V) (o1 o2 : M) (keys : List String) :
    gmMatches keys (getProps env o1 keys) (getProps env o2 keys) = true ↔
      ∀ k ∈ keys, env o1 k = env o2 k := by
  rw [gmMatches_iff]
  constructor
  · intro h k hk
    have h2 := h k hk
    rw [plook_getProps env o1 keys k hk, plook_getProps env o2 keys k hk] at h2
    exact Option.some.inj h2
  · intro h k hk
    rw [plook_getProps env o1 keys k hk, plook_getProps env o2 keys k hk, h k hk]

theorem pushToFirstMatch_eq_none (propNames : List String) (values : List (String × V))
    (object : M) (gs : List (Group M V)) :
    pushToFirstMatch propNames values object gs = none ↔
      ∀ g ∈ gs, gmMatches propNames g.key values = false := by
  induction gs with
  | nil => simp [pushToFirstMatch]
  | cons g gs ih =>
    cases hm : gmMatches propNames g.key values with
    | true => simp [pushToFirstMatch, hm]
    | false => simp [pushToFirstMatch, hm, ih]

theorem pushToFirstMatch_some_spec (propNames : List String) (values : List (String × V))
    (object : M) (gs gs2 : List (Group M V))
    (h : pushToFirstMatch propNames values object gs = some gs2) :
    ∀ g2 ∈ gs2, g2 ∈ gs ∨ ∃ g, g ∈ gs ∧ gmMatches propNames g.key values = true ∧
      g2 = { g with members := g.members ++ [object] } := by
  induction gs generalizing gs2 with
  | nil => simp [pushToFirstMatch] at h
  | cons g gs ih =>
    by_cases hm : gmMatches propNames g.key values = true
    · rw [pushToFirstMatch, if_pos hm] at h
      cases h
      intro g2 hg2
      rcases List.mem_cons.mp hg2 with h1 | h1
      · exact Or.inr ⟨g, List.mem_cons_self g gs, hm, h1⟩
      · exact Or.inl (List.mem_cons_of_mem g h1)
    · rw [pushToFirstMatch, if_neg hm] at h
      cases hrec : pushToFirstMatch propNames values object gs with
      | none => rw [hrec] at h; simp at h
      | some r =>
        rw [hrec] at h
        simp only [Option.map_some'] at h
        cases h
        intro g2 hg2
        rcases List.mem_cons.mp hg2 with h1 | h1
        · exact Or.inl (h1 ▸ List.mem_cons_self g gs)
        · rcases ih r hrec g2 h1 with h2 | ⟨g0, hg0, hm0, he⟩
          · exact Or.inl (List.mem_cons_of_mem g h2)
          · exact Or.inr ⟨g0, List.mem_cons_of_mem g hg0, hm0, he⟩

theorem pushToFirstMatch_some_keys (propNames : List String) (values : List (String × V))
    (object : M) (gs gs2 : List (Group M V))
    (h : pushToFirstMatch propNames values object gs = some gs2) :
    gs2.map Group.key = gs.map Group.key := by
  induction gs generalizing gs2 with
  | nil => simp [pushToFirstMatch] at h
  | cons g gs ih =>
    by_cases hm : gmMatches propNames g.key values = true
    · rw [pushToFirstMatch, if_pos hm] at h
      cases h
      rfl
    · rw [pushToFirstMatch, if_neg hm] at h
      cases hrec : pushToFirstMatch propNames values object gs with
      | none => rw [hrec] at h; simp at h
      | some r =>
        rw [hrec] at h
        simp only [Option.map_some'] at h
        cases h
        simp [List.map_cons, ih r hrec]

theorem pushToFirstMatch_mem_preserved (propNames : List String)
    (values : List (String × V)) (object : M) (gs gs2 : List (Group M V))
    (h : pushToFirstMatch propNames values object gs = some gs2) (m : M)
    (hm : ∃ g ∈ gs, m ∈ g.members) : ∃ g2 ∈ gs2, m ∈ g2.members := by
  induction gs generalizing gs2 with
  | nil => simp [pushToFirstMatch] at h
  | cons g gs ih =>
    by_cases hmk : gmMatches propNames g.key values = true
    · rw [pushToFirstMatch, if_pos hmk] at h
      cases h
      rcases hm with ⟨g0, hg0, hmem⟩
      rcases List.mem_cons.mp hg0 with h1 | h1
      · subst h1
        exact ⟨_, List.mem_cons_self _ _, List.mem_append_left _ hmem⟩
      · exact ⟨g0, List.mem_cons_of_mem _ h1, hmem⟩
    · rw [pushToFirstMatch, if_neg hmk] at h
      cases hrec : pushToFirstMatch propNames values object gs with
      | none => rw [hrec] at h; simp at h
      | some r =>
        rw [hrec] at h
        simp only [Option.map_some'] at h
        cases h
        rcases hm with ⟨g0, hg0, hmem⟩
        rcases List.mem_cons.mp hg0 with h1 | h1
        · exact ⟨g, h1 ▸ List.mem_cons_self _ _, h1 ▸ hmem⟩
        · rcases ih r hrec ⟨g0, h1, hmem⟩ with ⟨g2, hg2, hm2⟩
          exact ⟨g2, List.mem_cons_of_mem _ hg2, hm2⟩

theorem pushToFirstMatch_object_mem (propNames : List String)
    (values : List (String × V)) (object : M) (gs gs2 : List (Group M V))
    (h : pushToFirstMatch propNames values object gs = some gs2) :
    ∃ g2 ∈ gs2, object ∈ g2.members := by
  induction gs generalizing gs2 with
  | nil => simp [pushToFirstMatch] at h
  | cons g gs ih =>
    by_cases hmk : gmMatches propNames g.key values = true
    · rw [pushToFirstMatch, if_pos hmk] at h
      cases h
      exact ⟨_, List.mem_cons_self _ _, List.mem_append_right _ (List.mem_singleton.mpr rfl)⟩
    · rw [pushToFirstMatch, if_neg hmk] at h
      cases hrec : pushToFirstMatch propNames values object gs with
      | none => rw [hrec] at h; simp at h
      | some r =>
        rw [hrec] at h
        simp only [Option.map_some'] at h
        cases h
        rcases ih r hrec with ⟨g2, hg2, hm2⟩
        exact ⟨g2, List.mem_cons_of_mem _ hg2, hm2⟩

theorem gciStep_inv (env : M → String → V) (propNames : List String)
    (gs : List (Group M V)) (o : M) (h : GroupsInv propNames env gs) :
    GroupsInv propNames env (gciStep env propNames gs o) := by
  rw [gciStep, gmFindOrCreatePush]
  cases hp : pushToFirstMatch propNames (getProps env o propNames) o gs with
  | some gs2 =>
    constructor
    · intro g2 hg2 m hm
      rcases pushToFirstMatch_some_spec propNames _ o gs gs2 hp g2 hg2 with h1 | ⟨g, hg, hmk, he⟩
      · exact h.1 g2 h1 m hm
      · subst he
        simp only at hm
        rcases List.mem_append.mp hm with h2 | h2
        · exact h.1 g hg m h2
        · rw [List.mem_singleton.mp h2]
          exact hmk
    · have hkeys := pushToFirstMatch_some_keys propNames _ o gs gs2 hp
      have h2 : (gs2.map Group.key).Pairwise
          (fun a b => gmMatches propNames a b = false) := by
        rw [hkeys]
        exact (List.pairwise_map).mpr h.2
      exact (List.pairwise_map).mp h2
  | none =>
    have hnone := (pushToFirstMatch_eq_none propNames _ o gs).mp hp
    constructor
    · intro g2 hg2 m hm
      rcases List.mem_append.mp hg2 with h1 | h1
      · exact h.1 g2 h1 m hm
      · rw [List.mem_singleton.mp h1] at hm ⊢
        simp only at hm ⊢
        rw [List.mem_singleton.mp hm]
        exact gmMatches_getProps env o o propNames |>.mpr (fun _ _ => rfl)
    · rw [List.pairwise_append]
      refine ⟨h.2, List.pairwise_singleton _ _, ?_⟩
      intro g hg g2 hg2
      rw [List.mem_singleton.mp hg2]
      exact hnone g hg

theorem gciStep_mem_preserved (env : M → String → V) (propNames : List String)
    (gs : List (Group M V)) (o m : M) (hm : ∃ g ∈ gs, m ∈ g.members) :
    ∃ g ∈ gciStep env propNames gs o, m ∈ g.members := by
  rw [gciStep, gmFindOrCreatePush]
  cases hp : pushToFirstMatch propNames (getProps env o propNames) o gs with
  | some gs2 => exact pushToFirstMatch_mem_preserved propNames _ o gs gs2 hp m hm
  | none =>
    rcases hm with ⟨g, hg, hmem⟩
    exact ⟨g, List.mem_append_left _ hg, hmem⟩

theorem gciStep_object_mem (env : M → String → V) (propNames : List String)
    (gs : List (Group M V)) (o : M) :
    ∃ g ∈ gciStep env propNames gs o, o ∈ g.members := by
  rw [gciStep, gmFindOrCreatePush]
  cases hp : pushToFirstMatch propNames (getProps env o propNames) o gs with
  | some gs2 => exact pushToFirstMatch_object_mem propNames _ o gs gs2 hp
  | none =>
    refine ⟨_, List.mem_append_right _ (List.mem_singleton.mpr rfl), ?_⟩
    exact List.mem_singleton.mpr rfl

theorem foldl_gciStep_inv (env : M → String → V) (propNames : List String)
    (content : List M) (gs : List (Group M V)) (h : GroupsInv propNames env gs) :
    GroupsInv propNames env (content.foldl (gciStep env propNames) gs) := by
  induction content generalizing gs with
  | nil => exact h
  | cons o rest ih => exact ih _ (gciStep_inv env propNames gs o h)

theorem foldl_gciStep_cover (env : M → String → V) (propNames : List String)
    (content : List M) (gs : List (Group M V)) (m : M)
    (h : (∃ g ∈ gs, m ∈ g.members) ∨ m ∈ content) :
    ∃ g ∈ content.foldl (gciStep env propNames) gs, m ∈ g.members := by
  induction content generalizing gs with
  | nil =>
    rcases h with h | h
    · exact h
    · cases h
  | cons o rest ih =>
    rcases h with h | h
    · exact ih (gciStep env propNames gs o) (Or.inl (gciStep_mem_preserved env propNames gs o m h))
    · rcases List.mem_cons.mp h with h1 | h1
      · subst h1
        exact ih _ (Or.inl (gciStep_object_mem env propNames gs m))
      · exact ih _ (Or.inr h1)

theorem buildGroups_inv (env : M → String → V) (propNames : List String)
    (content : List M) : GroupsInv propNames env (buildGroups env propNames content) :=
  foldl_gciStep_inv env propNames content [] ⟨by simp, List.Pairwise.nil⟩

theorem buildGroups_cover (env : M → String → V) (propNames : List String)
    (content : List M) (m : M) (h : m ∈ content) :
    ∃ g ∈ buildGroups env propNames content, m ∈ g.members :=
  foldl_gciStep_cover env propNames content [] m (Or.inr h)

theorem GroupsInv_key_eq (propNames : List String) (env : M → String → V)
    (gs : List (Group M V)) (h : GroupsInv propNames env gs) (g1 g2 : Group M V)
    (hg1 : g1 ∈ gs) (hg2 : g2 ∈ gs)
    (hmk : gmMatches propNames g1.key g2.key = true) : g1 = g2 := by
  by_cases heq : g1 = g2
  · exact heq
  · have hsym : Symmetric (fun a b : Group M V => gmMatches propNames a.key b.key = false) := by
      intro a b hab
      cases hba : gmMatches propNames b.key a.key with
      | false => rfl
      | true => rw [gmMatches_symm propNames b.key a.key hba] at hab; cases hab
    have := h.2.forall hsym hg1 hg2 heq
    rw [hmk] at this
    cases this

theorem GroupsInv_member_match (propNames : List String) (env : M → String → V)
    (gs : List (Group M V)) (h : GroupsInv propNames env gs) (g1 g2 : Group M V)
    (hg1 : g1 ∈ gs) (hg2 : g2 ∈ gs) (m1 m2 : M) (hm1 : m1 ∈ g1.members)
    (hm2 : m2 ∈ g2.members) (hp : ∀ k ∈ propNames, env m1 k = env m2 k) : g1 = g2 := by
  apply GroupsInv_key_eq propNames env gs h g1 g2 hg1 hg2
  rw [gmMatches_iff]
  intro k hk
  have e1 := (gmMatches_iff propNames g1.key (getProps env m1 propNames)).mp
    (h.1 g1 hg1 m1 hm1) k hk
  have e2 := (gmMatches_iff propNames g2.key (getProps env m2 propNames)).mp
    (h.1 g2 hg2 m2 hm2) k hk
  rw [plook_getProps env m1 propNames k hk] at e1
  rw [plook_getProps env m2 propNames k hk] at e2
  rw [e1, e2, hp k hk]

/-- C3: after building the initial partition over content `C` with a non-empty
key-property list `K`, every member of `C` appears in exactly one group, two
members of `C` share a group iff their `K`-projected value tuples are equal
component-wise, and the member is found in the first group that the linear
`_gmFindGroup` scan matches for its values. -/
theorem claim_C3_partition_correct (env : M → String → V) (propNames : List String)
    (content : List M) (hK : propNames ≠ []) :
    (∀ m ∈ content, ∃! g, g ∈ buildGroups env propNames content ∧ m ∈ g.members) ∧
    (∀ m1 ∈ content, ∀ m2 ∈ content,
      ((∃ g, g ∈ buildGroups env propNames content ∧ m1 ∈ g.members ∧ m2 ∈ g.members) ↔
        ∀ k ∈ propNames, env m1 k = env m2 k)) ∧
    (∀ m ∈ content, ∀ g, gmFindGroup (buildGroups env propNames content) propNames
        (getProps env m propNames) = some g → m ∈ g.members) := by
  have hinv := buildGroups_inv env propNames content
  refine ⟨?_, ?_, ?_⟩
  · intro m hm
    rcases buildGroups_cover env propNames content m hm with ⟨g, hg, hmem⟩
    refine ⟨g, ⟨hg, hmem⟩, ?_⟩
    rintro g2 ⟨hg2, hmem2⟩
    exact GroupsInv_member_match propNames env _ hinv g2 g hg2 hg m m hmem2 hmem
      (fun _ _ => rfl)
  · intro m1 hm1 m2 hm2
    constructor
    · rintro ⟨g, hg, hmm1, hmm2⟩ k hk
      have e1 := (gmMatches_iff propNames g.key (getProps env m1 propNames)).mp
        (hinv.1 g hg m1 hmm1) k hk
      have e2 := (gmMatches_iff propNames g.key (getProps env m2 propNames)).mp
        (hinv.1 g hg m2 hmm2) k hk
      rw [plook_getProps env m1 propNames k hk] at e1
      rw [plook_getProps env m2 propNames k hk] at e2
      exact Option.some.inj (e1.symm.trans e2)
    · intro hp
      rcases buildGroups_cover env propNames content m1 hm1 with ⟨g1, hg1, hmem1⟩
      rcases buildGroups_cover env propNames content m2 hm2 with ⟨g2, hg2, hmem2⟩
      have heq := GroupsInv_member_match propNames env _ hinv g1 g2 hg1 hg2 m1 m2
        hmem1 hmem2 hp
      exact ⟨g1, hg1, hmem1, heq ▸ hmem2⟩
  · intro m hm g hfind
    rw [gmFindGroup] at hfind
    have hg : g ∈ buildGroups env propNames content := List.mem_of_find?_eq_some hfind
    have hmk0 := List.find?_some hfind
    simp only at hmk0
    have hmk : gmMatches propNames g.key (getProps env m propNames) = true := hmk0
    rcases buildGroups_cover env propNames content m hm with ⟨g1, hg1, hmem1⟩
    have hmk1 := hinv.1 g1 hg1 m hmem1
    have hkk : gmMatches propNames g.key g1.key = true := by
      rw [gmMatches_iff]
      intro k hk
      have a := (gmMatches_iff propNames g.key (getProps env m propNames)).mp hmk k hk
      have b := (gmMatches_iff propNames g1.key (getProps env m propNames)).mp hmk1 k hk
      rw [a, b]
    have heq := GroupsInv_key_eq propNames env _ hinv g g1 hg hg1 hkk
    rw [heq]
    exact hmem1

theorem claim_C3_partition_correct_witness :
    (["g"] : List String) ≠ [] ∧
    ((∀ m ∈ [1, 2, 3], ∃! g, g ∈ buildGroups (fun (m : Nat) (_ : String) => m % 2)
        ["g"] [1, 2, 3] ∧ m ∈ g.members) ∧
    (∀ m1 ∈ [1, 2, 3], ∀ m2 ∈ [1, 2, 3],
      ((∃ g, g ∈ buildGroups (fun (m : Nat) (_ : String) => m % 2) ["g"] [1, 2, 3] ∧
          m1 ∈ g.members ∧ m2 ∈ g.members) ↔
        ∀ k ∈ ["g"], m1 % 2 = m2 % 2)) ∧
    (∀ m ∈ [1, 2, 3], ∀ g, gmFindGroup (buildGroups (fun (m : Nat) (_ : String) => m % 2)
        ["g"] [1, 2, 3]) ["g"]
        (getProps (fun (m : Nat) (_ : String) => m % 2) m ["g"]) = some g →
          m ∈ g.members)) :=
  ⟨by decide, claim_C3_partition_correct (fun (m : Nat) (_ : String) => m % 2) ["g"]
    [1, 2, 3] (by decide)⟩

/-- C1 is refuted on the code: a single structural splice that adds two members
(1 and 2) sharing the key value 5 for the single group property "g", applied to
a state with no groups, creates two distinct groups with strictly-equal
key-value tuples — `contentArrayDidChange` batches created groups in
`groupsToAdd` but `_gmFindGroup` only scans the already-attached groups, so the
second member misses the group created for the first. The duplicate-group-free
invariant fails on the resulting grouped content. -/
theorem claim_C1_duplicate_groups_on_batched_add :
    (applyEdit ["g"] true (initState (fun (_ : Nat) (_ : String) => (5 : Nat)) ["g"] [])
        (.splice 0 0 [1, 2])).groups =
      [⟨[("g", 5)], [1]⟩, ⟨[("g", 5)], [2]⟩] ∧
    ¬ ((applyEdit ["g"] true (initState (fun (_ : Nat) (_ : String) => (5 : Nat)) ["g"] [])
        (.splice 0 0 [1, 2])).groups.Pairwise
        (fun g1 g2 => gmMatches ["g"] g1.key g2.key = false)) := by
  constructor
  · decide
  · decide

/-- C2 is refuted on the code at the empty array: `isGrouped` is
`Ember.computed.bool('groupProperties')`, and an empty JS array is truthy, so
`isGrouped` is `true` for `groupProperties = []` although the claim requires
`false` there. -/
theorem claim_C2_empty_array_isGrouped : isGrouped (JSVal.arr []) = true := rfl

/-- C2 amended: `isGrouped` is the JS truthiness coercion of `groupProperties`;
every array — the empty array included — is truthy, so `isGrouped` is true for
every array value and false exactly for falsy values such as null or
undefined. -/
theorem claim_C2_isGrouped_is_truthiness :
    (∀ ps : List String, isGrouped (JSVal.arr ps) = true) ∧
    isGrouped JSVal.null = false ∧ isGrouped JSVal.undef = false ∧
    (∀ gp : JSVal, isGrouped gp = truthy gp) :=
  ⟨fun _ => rfl, rfl, rfl, fun _ => rfl⟩

/-- C4 is refuted on the code: when a tracked member's key-property change
empties its group, `contentItemGroupPropertyWillChange` only removes the group
from `groupedContent` (`groupedContent.removeObject(group)`) and never invokes
`destroy` on it, unlike the structural-removal path `contentArrayWillChange`
which both removes and destroys emptied groups. Concretely, with one group
holding the single member 0 and the member's "g" value changing from 0 to 1,
the emptied group ⟨g=0⟩ is detached but the engine's destroyed-group list stays
empty, while the same emptying via a structural splice does destroy the
group. -/
theorem claim_C4_field_change_group_detached_not_destroyed :
    (applyEdit ["g"] true (initState (fun (_ : Nat) (_ : String) => (0 : Nat)) ["g"] [0])
        (.fieldSet 0 "g" 1)).groups = [⟨[("g", 1)], [0]⟩] ∧
    (applyEdit ["g"] true (initState (fun (_ : Nat) (_ : String) => (0 : Nat)) ["g"] [0])
        (.fieldSet 0 "g" 1)).destroyed = [] ∧
    (applyEdit ["g"] true (initState (fun (_ : Nat) (_ : String) => (0 : Nat)) ["g"] [0])
        (.splice 0 1 [])).destroyed = [⟨[("g", 0)], []⟩] := by
  refine ⟨by decide, by decide, by decide⟩

theorem foldl_gciStep_empty_props (env : M → String → V) (rest : List M) (acc : List M) :
    rest.foldl (gciStep env []) [⟨[], acc⟩] = [⟨[], acc ++ rest⟩] := by
  induction rest generalizing acc with
  | nil => simp
  | cons o os ih =>
    have hstep : gciStep env [] ([⟨[], acc⟩] : List (Group M V)) o = [⟨[], acc ++ [o]⟩] := by
      simp [gciStep, gmFindOrCreatePush, pushToFirstMatch, getProps, gmMatches]
    rw [List.foldl_cons, hstep, ih]
    simp

theorem buildGroups_empty_props (env : M → String → V) (m : M) (rest : List M) :
    buildGroups env [] (m :: rest) = [⟨[], m :: rest⟩] := by
  rw [buildGroups, List.foldl_cons]
  have hstep : gciStep env [] ([] : List (Group M V)) m = [⟨[], [m]⟩] := by
    simp [gciStep, gmFindOrCreatePush, pushToFirstMatch, getProps]
  rw [hstep, foldl_gciStep_empty_props]
  simp

theorem buildSubs_empty_props (content : List M) : buildSubs ([] : List String) content = [] := by
  rw [buildSubs]
  induction content with
  | nil => rfl
  | cons o os ih => simp [List.foldl_cons, ih]

/-- C10: with `groupProperties = []` and non-empty content, the grouped code
path is taken (`isGrouped` is truthy for an empty array), the vacuous key match
makes every member after the first land in the single group created for the
first member, that group carries no key attributes, and no per-member observers
are installed. -/
theorem claim_C10_empty_props_single_group (env : M → String → V) (content : List M)
    (h : content ≠ []) :
    isGrouped (JSVal.arr []) = true ∧
    groupedContent env (some content) (JSVal.arr []) =
      Except.ok ([BuiltGroup.keyed ⟨[], content⟩], []) := by
  cases content with
  | nil => exact absurd rfl h
  | cons m rest =>
    refine ⟨rfl, ?_⟩
    simp [groupedContent, truthy, typeOf, isGrouped,
      buildGroups_empty_props, buildSubs_empty_props]

theorem claim_C10_empty_props_single_group_witness :
    ([1, 2] : List Nat) ≠ [] ∧
    (isGrouped (JSVal.arr []) = true ∧
    groupedContent (fun (_ : Nat) (_ : String) => (0 : Nat)) (some [1, 2]) (JSVal.arr []) =
      Except.ok ([BuiltGroup.keyed ⟨[], [1, 2]⟩], [])) :=
  ⟨by decide, claim_C10_empty_props_single_group
    (fun (_ : Nat) (_ : String) => (0 : Nat)) [1, 2] (by decide)⟩

/-- C7 is refuted on the code for falsy non-list values: the assertion guard is
`!groupProperties || Ember.typeOf(groupProperties) === 'array'`, so a falsy
non-array such as the empty string passes the assert, `isGrouped` is false, and
the build silently takes the ungrouped passthrough path instead of failing
fast. -/
theorem claim_C7_empty_string_no_error :
    groupedContent (fun (_ : Nat) (_ : String) => (0 : Nat)) (some [1]) (JSVal.str "") =
      Except.ok ([BuiltGroup.passthrough], []) := rfl

/-- C7 amended: only a truthy non-array `groupProperties` (for example a
non-empty string or a non-zero number) makes `groupedContent` fail fast with
the descriptive assertion error; falsy non-array values (empty string, 0,
false, undefined) are treated like null/unset and silently take the ungrouped
path. -/
theorem claim_C7_truthy_nonarray_fails_fast (env : M → String → V)
    (content : Option (List M)) (gp : JSVal) (h1 : truthy gp = true)
    (h2 : typeOf gp ≠ "array") :
    groupedContent env content gp =
      Except.error "groupProperties must be null or an array" := by
  have hb : (typeOf gp == "array") = false := beq_eq_false_iff_ne.mpr h2
  simp [groupedContent, h1, hb]

theorem claim_C7_truthy_nonarray_fails_fast_witness :
    truthy (JSVal.str "x") = true ∧ typeOf (JSVal.str "x") ≠ "array" ∧
    groupedContent (fun (_ : Nat) (_ : String) => (0 : Nat)) (some [1]) (JSVal.str "x") =
      Except.error "groupProperties must be null or an array" :=
  ⟨rfl, by decide, claim_C7_truthy_nonarray_fails_fast
    (fun (_ : Nat) (_ : String) => (0 : Nat)) (some [1]) (JSVal.str "x") rfl (by decide)⟩

theorem applyEdit_ungrouped_frame (propNames : List String) (st : GMState M V)
    (e : Edit M V) :
    (applyEdit propNames false st e).groups = st.groups ∧
    (applyEdit propNames false st e).subs = st.subs := by
  cases e with
  | splice idx rem items =>
    simp [applyEdit, contentArrayWillChange, contentArrayDidChange]
  | fieldSet o k v =>
    simp [applyEdit, contentItemGroupPropertyWillChange, contentItemGroupPropertyDidChange]

theorem applyEdits_ungrouped_frame (propNames : List String) (st : GMState M V)
    (edits : List (Edit M V)) :
    (applyEdits propNames false st edits).groups = st.groups ∧
    (applyEdits propNames false st edits).subs = st.subs := by
  induction edits generalizing st with
  | nil => exact ⟨rfl, rfl⟩
  | cons e es ih =>
    rw [applyEdits, List.foldl_cons]
    have h1 := applyEdit_ungrouped_frame propNames st e
    have h2 := ih (applyEdit propNames false st e)
    rw [applyEdits] at h2
    exact ⟨h2.1.trans h1.1, h2.2.trans h1.2⟩

/-- C8: with `groupProperties` null, `groupedContent` holds exactly one group,
the passthrough group, whose presented members are always the source
collection's current content (a live `oneWay` view of
`parentController.content`, not a copy); and since `isGrouped` is false, no
structural or field notification handler of the engine ever touches the group
list or the observer set — the view is not maintained member-by-member. -/
theorem claim_C8_ungrouped_passthrough (env : M → String → V) (content : List M) :
    groupedContent env (some content) JSVal.null =
      Except.ok ([BuiltGroup.passthrough], []) ∧
    (∀ c2 : List M, membersAt (BuiltGroup.passthrough : BuiltGroup M V) c2 = c2) ∧
    isGrouped JSVal.null = false ∧
    (∀ (propNames : List String) (st : GMState M V) (edits : List (Edit M V)),
      (applyEdits propNames (isGrouped JSVal.null) st edits).groups = st.groups ∧
      (applyEdits propNames (isGrouped JSVal.null) st edits).subs = st.subs) :=
  ⟨rfl, fun _ => rfl, rfl, fun propNames st edits =>
    applyEdits_ungrouped_frame propNames st edits⟩

/-- C9: no engine operation writes a member field. The field environment is
unchanged by the initial partition, by structural splice handling and by
destruction, and a field-change edit leaves the environment exactly as the
external caller's single write made it — the engine's handlers add no writes of
their own. -/
theorem claim_C9_members_never_written (propNames : List String) (isG : Bool)
    (st : GMState M V) :
    (∀ idx rem (items : List M),
      (applyEdit propNames isG st (.splice idx rem items)).env = st.env) ∧
    (gmDestroy propNames st).env = st.env ∧
    (∀ (env0 : M → String → V) (content : List M),
      (initState env0 propNames content).env = env0) ∧
    (∀ o key v, (applyEdit propNames isG st (.fieldSet o key v)).env =
      fun o2 k2 => if o2 = o ∧ k2 = key then v else st.env o2 k2) :=
  ⟨fun _ _ _ => rfl, rfl, fun _ _ => rfl, fun _ _ _ => rfl⟩

theorem mem_addSub (s : List (M × String)) (p q : M × String) :
    q ∈ addSub s p ↔ q ∈ s ∨ q = p := by
  rw [addSub]
  by_cases h : p ∈ s
  · rw [if_pos h]
    constructor
    · exact Or.inl
    · rintro (h1 | rfl)
      · exact h1
      · exact h
  · rw [if_neg h]
    simp [List.mem_append]

theorem mem_removeSub (s : List (M × String)) (p q : M × String) :
    q ∈ removeSub s p ↔ q ∈ s ∧ q ≠ p := by
  simp [removeSub, List.mem_filter]

theorem mem_foldl_addSub (propNames : List String) (o : M) (s : List (M × String))
    (q : M × String) :
    q ∈ propNames.foldl (fun s2 k => addSub s2 (o, k)) s ↔
      q ∈ s ∨ (q.1 = o ∧ q.2 ∈ propNames) := by
  induction propNames generalizing s with
  | nil => simp
  | cons k ks ih =>
    rw [List.foldl_cons, ih, mem_addSub, Prod.ext_iff, List.mem_cons]
    tauto

theorem mem_foldl_removeSub (propNames : List String) (o : M) (s : List (M × String))
    (q : M × String) :
    q ∈ propNames.foldl (fun s2 k => removeSub s2 (o, k)) s ↔
      q ∈ s ∧ ¬(q.1 = o ∧ q.2 ∈ propNames) := by
  induction propNames generalizing s with
  | nil => simp
  | cons k ks ih =>
    rw [List.foldl_cons, ih, mem_removeSub, Ne, Prod.ext_iff, List.mem_cons]
    tauto

theorem mem_foldl_addAll (propNames : List String) (objs : List M)
    (s : List (M × String)) (q : M × String) :
    q ∈ objs.foldl (fun s2 o => propNames.foldl (fun s3 k => addSub s3 (o, k)) s2) s ↔
      q ∈ s ∨ (q.1 ∈ objs ∧ q.2 ∈ propNames) := by
  induction objs generalizing s with
  | nil => simp
  | cons o os ih =>
    rw [List.foldl_cons, ih, mem_foldl_addSub, List.mem_cons]
    tauto

theorem mem_foldl_removeAll (propNames : List String) (objs : List M)
    (s : List (M × String)) (q : M × String) :
    q ∈ objs.foldl (fun s2 o => propNames.foldl (fun s3 k => removeSub s3 (o, k)) s2) s ↔
      q ∈ s ∧ ¬(q.1 ∈ objs ∧ q.2 ∈ propNames) := by
  induction objs generalizing s with
  | nil => simp
  | cons o os ih =>
    rw [List.foldl_cons, ih, mem_foldl_removeSub, List.mem_cons]
    tauto

theorem mem_buildSubs (propNames : List String) (content : List M) (q : M × String) :
    q ∈ buildSubs propNames content ↔ q.1 ∈ content ∧ q.2 ∈ propNames := by
  rw [buildSubs, mem_foldl_addAll]
  simp

theorem arrayWillStep_subs (propNames : List String) (env : M → String → V)
    (acc : List (Group M V) × List (Group M V) × List (M × String)) (o : M) :
    (arrayWillStep propNames env acc o).2.2 =
      propNames.foldl (fun s k => removeSub s (o, k)) acc.2.2 := rfl

theorem foldl_arrayWillStep_subs (propNames : List String) (env : M → String → V)
    (removed : List M)
    (acc : List (Group M V) × List (Group M V) × List (M × String)) :
    (removed.foldl (arrayWillStep propNames env) acc).2.2 =
      removed.foldl (fun s o => propNames.foldl (fun s2 k => removeSub s2 (o, k)) s)
        acc.2.2 := by
  induction removed generalizing acc with
  | nil => rfl
  | cons o os ih =>
    rw [List.foldl_cons, List.foldl_cons, ih, arrayWillStep_subs]

theorem arrayDidStep_subs (propNames : List String) (env : M → String → V)
    (acc : List (Group M V) × List (Group M V) × List (M × String)) (o : M) :
    (arrayDidStep propNames env acc o).2.2 =
      propNames.foldl (fun s k => addSub s (o, k)) acc.2.2 := rfl

theorem foldl_arrayDidStep_subs (propNames : List String) (env : M → String → V)
    (added : List M)
    (acc : List (Group M V) × List (Group M V) × List (M × String)) :
    (added.foldl (arrayDidStep propNames env) acc).2.2 =
      added.foldl (fun s o => propNames.foldl (fun s2 k => addSub s2 (o, k)) s)
        acc.2.2 := by
  induction added generalizing acc with
  | nil => rfl
  | cons o os ih =>
    rw [List.foldl_cons, List.foldl_cons, ih, arrayDidStep_subs]

theorem contentArrayWillChange_subs (propNames : List String) (env : M → String → V)
    (groups : List (Group M V)) (subs : List (M × String)) (removed : List M) :
    (contentArrayWillChange propNames env true groups subs removed).2.1 =
      removed.foldl (fun s o => propNames.foldl (fun s2 k => removeSub s2 (o, k)) s)
        subs := by
  rw [contentArrayWillChange, if_pos rfl]
  exact foldl_arrayWillStep_subs propNames env removed (groups, [], subs)

theorem contentArrayDidChange_subs (propNames : List String) (env : M → String → V)
    (groups : List (Group M V)) (subs : List (M × String)) (added : List M) :
    (contentArrayDidChange propNames env true groups subs added).2 =
      added.foldl (fun s o => propNames.foldl (fun s2 k => addSub s2 (o, k)) s)
        subs := by
  rw [contentArrayDidChange, if_pos rfl]
  exact foldl_arrayDidStep_subs propNames env added (groups, [], subs)

theorem applyEdit_splice_content (propNames : List String) (isG : Bool)
    (st : GMState M V) (idx rem : Nat) (items : List M) :
    (applyEdit propNames isG st (.splice idx rem items)).content =
      st.content.take idx ++ items ++ st.content.drop (idx + rem) := rfl

theorem applyEdit_fieldSet_frame (propNames : List String) (isG : Bool)
    (st : GMState M V) (o : M) (k : String) (v : V) :
    (applyEdit propNames isG st (.fieldSet o k v)).subs = st.subs ∧
    (applyEdit propNames isG st (.fieldSet o k v)).content = st.content :=
  ⟨rfl, rfl⟩

theorem applyEdit_splice_subs (propNames : List String) (st : GMState M V)
    (idx rem : Nat) (items : List M) :
    (applyEdit propNames true st (.splice idx rem items)).subs =
      (((st.content.take idx ++ items ++ st.content.drop (idx + rem)).drop idx).take
          items.length).foldl
        (fun s o => propNames.foldl (fun s2 k => addSub s2 (o, k)) s)
        (((st.content.drop idx).take rem).foldl
          (fun s o => propNames.foldl (fun s2 k => removeSub s2 (o, k)) s) st.subs) := by
  show (contentArrayDidChange propNames st.env true
      (contentArrayWillChange propNames st.env true st.groups st.subs _).1
      (contentArrayWillChange propNames st.env true st.groups st.subs _).2.1 _).2 = _
  rw [contentArrayDidChange_subs, contentArrayWillChange_subs]

theorem applyEdit_splice_subsExact (propNames : List String) (st : GMState M V)
    (idx rem : Nat) (items : List M) (hnd : st.content.Nodup)
    (hex : subsExact propNames st) (hv : idx + rem ≤ st.content.length) :
    subsExact propNames (applyEdit propNames true st (.splice idx rem items)) := by
  have hidx : idx ≤ st.content.length := le_trans (Nat.le_add_right idx rem) hv
  have hlen : (st.content.take idx).length = idx := by
    rw [List.length_take]
    exact min_eq_left hidx
  have hsplit : st.content.take idx ++
      ((st.content.drop idx).take rem ++ st.content.drop (idx + rem)) = st.content := by
    rw [List.drop_take_append_drop, List.take_append_drop]
  have hadded0 : ∀ pre : List M, pre.length = idx →
      ((pre ++ items ++ st.content.drop (idx + rem)).drop idx).take items.length = items := by
    intro pre hpre
    rw [List.append_assoc, ← hpre, List.drop_left, List.take_left]
  have hadded : ((st.content.take idx ++ items ++ st.content.drop (idx + rem)).drop idx).take
      items.length = items := hadded0 (st.content.take idx) hlen
  have hnd2 : (st.content.take idx).Nodup ∧ ((st.content.drop idx).take rem).Nodup ∧
      (st.content.drop (idx + rem)).Nodup ∧
      (st.content.take idx).Disjoint ((st.content.drop idx).take rem ++
        st.content.drop (idx + rem)) ∧
      ((st.content.drop idx).take rem).Disjoint (st.content.drop (idx + rem)) := by
    have h2 := hnd
    rw [← hsplit, List.nodup_append, List.nodup_append] at h2
    exact ⟨h2.1, h2.2.1.1, h2.2.1.2.1, h2.2.2, h2.2.1.2.2⟩
  have hmem : ∀ q : M × String,
      q ∈ (applyEdit propNames true st (.splice idx rem items)).subs ↔
        ((q ∈ st.subs ∧ ¬(q.1 ∈ (st.content.drop idx).take rem ∧ q.2 ∈ propNames)) ∨
          (q.1 ∈ items ∧ q.2 ∈ propNames)) := by
    intro q
    rw [applyEdit_splice_subs, hadded, mem_foldl_addAll, mem_foldl_removeAll]
  constructor
  · intro q hq
    rcases (hmem q).mp hq with ⟨hq1, hq2⟩ | ⟨hq1, hq2⟩
    · have h3 := hex.1 q hq1
      refine ⟨?_, h3.2⟩
      have h4 : q.1 ∉ (st.content.drop idx).take rem := fun hc => hq2 ⟨hc, h3.2⟩
      have h5 : q.1 ∈ st.content := h3.1
      rw [← hsplit, List.mem_append, List.mem_append] at h5
      rw [applyEdit_splice_content, List.append_assoc, List.mem_append, List.mem_append]
      rcases h5 with h5 | h5 | h5
      · exact Or.inl h5
      · exact absurd h5 h4
      · exact Or.inr (Or.inr h5)
    · refine ⟨?_, hq2⟩
      rw [applyEdit_splice_content, List.append_assoc, List.mem_append, List.mem_append]
      exact Or.inr (Or.inl hq1)
  · intro m hm k hk
    rw [applyEdit_splice_content, List.append_assoc, List.mem_append, List.mem_append] at hm
    rcases hm with hm | hm | hm
    · refine (hmem (m, k)).mpr (Or.inl ⟨hex.2 m ?_ k hk, ?_⟩)
      · rw [← hsplit]
        exact List.mem_append_left _ hm
      · intro hc
        exact hnd2.2.2.2.1 hm (List.mem_append_left _ hc.1)
    · exact (hmem (m, k)).mpr (Or.inr ⟨hm, hk⟩)
    · refine (hmem (m, k)).mpr (Or.inl ⟨hex.2 m ?_ k hk, ?_⟩)
      · rw [← hsplit]
        exact List.mem_append_right _ (List.mem_append_right _ hm)
      · intro hc
        exact hnd2.2.2.2.2 hc.1 hm

theorem applyEdit_fieldSet_subsExact (propNames : List String) (st : GMState M V)
    (o : M) (k : String) (v : V) (hex : subsExact propNames st) :
    subsExact propNames (applyEdit propNames true st (.fieldSet o k v)) := by
  have h1 := applyEdit_fieldSet_frame propNames true st o k v
  constructor
  · intro p hp
    rw [h1.1] at hp
    rw [h1.2]
    exact hex.1 p hp
  · intro m hm k2 hk2
    rw [h1.2] at hm
    rw [h1.1]
    exact hex.2 m hm k2 hk2

theorem validSeq_subsExact (propNames : List String) (st : GMState M V)
    (edits : List (Edit M V)) (hnd : st.content.Nodup) (hex : subsExact propNames st)
    (hv : validSeqB propNames true st edits = true) :
    subsExact propNames (applyEdits propNames true st edits) := by
  induction edits generalizing st with
  | nil => exact hex
  | cons e es ih =>
    rw [validSeqB, Bool.and_eq_true, Bool.and_eq_true] at hv
    have hval : validEditB st e = true := hv.1.1
    have hnd2 : (applyEdit propNames true st e).content.Nodup := of_decide_eq_true hv.1.2
    have hrest : validSeqB propNames true (applyEdit propNames true st e) es = true := hv.2
    rw [applyEdits, List.foldl_cons]
    have hex2 : subsExact propNames (applyEdit propNames true st e) := by
      cases e with
      | splice idx rem items =>
        rw [validEditB] at hval
        exact applyEdit_splice_subsExact propNames st idx rem items hnd hex
          (of_decide_eq_true hval)
      | fieldSet o k v => exact applyEdit_fieldSet_subsExact propNames st o k v hex
    exact ih (applyEdit propNames true st e) hnd2 hex2 hrest

theorem initState_subsExact (env : M → String → V) (propNames : List String)
    (content : List M) : subsExact propNames (initState env propNames content) := by
  constructor
  · intro p hp
    exact (mem_buildSubs propNames content p).mp hp
  · intro m hm k hk
    exact (mem_buildSubs propNames content (m, k)).mpr ⟨hm, hk⟩

/-- C5 is refuted as stated: with the member 0 present twice in the source
collection, the initial partition installs one (deduplicated) observer pair for
(0, "g"); a valid splice removing only the first occurrence makes
`contentArrayWillChange` unsubscribe the pair, so at the following quiescent
point the member 0 is still in the content but holds no subscription. -/
theorem claim_C5_counterexample_duplicate_member :
    validEditB (initState (fun (_ : Nat) (_ : String) => (0 : Nat)) ["g"] [0, 0])
        (.splice 0 1 []) = true ∧
    (0 : Nat) ∈ (applyEdit ["g"] true
        (initState (fun (_ : Nat) (_ : String) => (0 : Nat)) ["g"] [0, 0])
        (.splice 0 1 [])).content ∧
    "g" ∈ ["g"] ∧
    ((0 : Nat), "g") ∉ (applyEdit ["g"] true
        (initState (fun (_ : Nat) (_ : String) => (0 : Nat)) ["g"] [0, 0])
        (.splice 0 1 [])).subs := by
  refine ⟨by decide, by decide, by decide, by decide⟩

/-- C5 amended: provided the source collection never holds the same member at
two positions (the initial content is duplicate-free and every splice keeps the
content duplicate-free), the subscription set at every quiescent point reached
from the initial partition by valid structural splices and observed field
changes is exactly {(m, p) : m in content, p in groupProperties}. -/
theorem claim_C5_subscription_invariant (env : M → String → V)
    (propNames : List String) (content : List M) (edits : List (Edit M V))
    (h1 : content.Nodup)
    (h2 : validSeqB propNames true (initState env propNames content) edits = true) :
    subsExact propNames
      (applyEdits propNames true (initState env propNames content) edits) :=
  validSeq_subsExact propNames (initState env propNames content) edits h1
    (initState_subsExact env propNames content) h2

theorem claim_C5_subscription_invariant_witness :
    (([1, 2] : List Nat).Nodup ∧
      validSeqB ["g"] true (initState (fun (_ : Nat) (_ : String) => (0 : Nat)) ["g"] [1, 2])
        [.splice 0 1 [3], .fieldSet 2 "g" 7] = true) ∧
    subsExact ["g"] (applyEdits ["g"] true
      (initState (fun (_ : Nat) (_ : String) => (0 : Nat)) ["g"] [1, 2])
      [.splice 0 1 [3], .fieldSet 2 "g" 7]) :=
  ⟨⟨by decide, by decide⟩,
    claim_C5_subscription_invariant (fun (_ : Nat) (_ : String) => (0 : Nat)) ["g"] [1, 2]
      [.splice 0 1 [3], .fieldSet 2 "g" 7] (by decide) (by decide)⟩

theorem foldl_removeSub_eq_filter (propNames : List String) (o : M)
    (s : List (M × String)) :
    propNames.foldl (fun s2 k => removeSub s2 (o, k)) s =
      s.filter (fun q => decide (¬(q.1 = o ∧ q.2 ∈ propNames))) := by
  induction propNames generalizing s with
  | nil => simp
  | cons k ks ih =>
    rw [List.foldl_cons, ih, removeSub, List.filter_filter]
    apply List.filter_congr
    intro q hq
    by_cases h1 : q.1 = o
    · by_cases h2 : q.2 = k
      · have hqe : q = (o, k) := Prod.ext h1 h2
        simp [hqe]
      · by_cases h3 : q.2 ∈ ks
        · simp [h1, h2, h3, Prod.ext_iff]
        · simp [h1, h2, h3, Prod.ext_iff]
    · simp [h1, Prod.ext_iff]

theorem gmRemoveAll_eq_filter (propNames : List String) (content : List M)
    (s : List (M × String)) :
    gmRemoveAllContentItemObservers propNames content s =
      s.filter (fun q => decide (¬(q.1 ∈ content ∧ q.2 ∈ propNames))) := by
  rw [gmRemoveAllContentItemObservers]
  induction content generalizing s with
  | nil => simp
  | cons o os ih =>
    rw [List.foldl_cons, foldl_removeSub_eq_filter, ih, List.filter_filter]
    apply List.filter_congr
    intro q hq
    by_cases h1 : q.1 = o
    · simp only [h1, List.mem_cons, true_or]
      by_cases h3 : q.2 ∈ propNames
      · by_cases h2 : o ∈ os <;> simp [h2, h3]
      · by_cases h2 : o ∈ os <;> simp [h2, h3]
    · by_cases h2 : q.1 ∈ os
      · simp [h1, h2]
      · simp [h1, h2]

/-- C6: destroying the engine twice is harmless — the second `destroy` leaves
the state exactly as the first left it, and it removes no observer pair at all
(every `removeObserver` of the second pass targets an already-removed listener
and is a no-op), so every (member, property) pair is unsubscribed at most once
across both invocations. -/
theorem claim_C6_destroy_idempotent (propNames : List String) (st : GMState M V) :
    gmDestroy propNames (gmDestroy propNames st) = gmDestroy propNames st ∧
    destroyRemovedPairs propNames (gmDestroy propNames st) = [] := by
  have hsubs : (gmDestroy propNames (gmDestroy propNames st)).subs =
      (gmDestroy propNames st).subs := by
    show gmRemoveAllContentItemObservers propNames st.content
        (gmRemoveAllContentItemObservers propNames st.content st.subs) =
      gmRemoveAllContentItemObservers propNames st.content st.subs
    rw [gmRemoveAll_eq_filter, gmRemoveAll_eq_filter, List.filter_filter]
    apply List.filter_congr
    intro q hq
    rw [Bool.and_self]
  constructor
  · show ({ gmDestroy propNames st with
        subs := (gmDestroy propNames (gmDestroy propNames st)).subs } : GMState M V) =
      gmDestroy propNames st
    rw [hsubs]
  · rw [destroyRemovedPairs, List.filter_eq_nil_iff]
    intro q hq
    rw [hsubs]
    simp [hq]

end Groupable
